import Mathlib

/-!
# Verification of hashicorp/go-raftchunking

Shallow embedding of the chunking encoder (api.go), the sparse-placeholder
reassembly FSM (package raftchunking, fsm file) and the contiguous-append
reassembly FSM (package middleware), together with theorems settling the
frozen claims about them.

Modelling conventions:
* Byte slices are `List Nat`.
* Go maps `map[uint64]V` are functions `Nat → Option V`; `mupd` and `mdel`
  model insertion and `delete`.
* `raft.Log.Extensions` is a nilable byte slice that either encodes a
  `types.ChunkInfo` protobuf message or does not. We abstract the wire
  encoding (out of scope per the spec) by the inductive `ExtBytes`: `noExt`
  models a nil slice, `info` models a slice that decodes as `ChunkInfo`
  (with its logical fields), `raw` models bytes that fail to decode.
* Machine integers are `Nat` with `% 2^w` at the points where Go converts
  (`uint32(i)` in the encoder).
* A Go panic (out-of-range slice index in the sparse FSM) is modelled by
  the `none` result of `Option`.
* Recursive `Apply` calls are modelled with an explicit fuel argument; the
  exported wrappers supply fuel strictly larger than the nesting depth of
  the extension metadata, which bounds the recursion depth, so the
  out-of-fuel branch is unreachable from the wrappers.
-/

/-- Errors produced by this library or injected by its external
collaborators (crypto/rand, bytes.Reader, proto marshal/unmarshal). -/
inductive GoError : Type where
  | termMismatch
  | invalidOpID
  | noExistingChunks
  | seqMismatch
  | missingChunk
  | unmarshalFail
  | marshalWrap (e : GoError)
  | oracleFail (n : Nat)
  deriving DecidableEq, Repr

/-- raft.LogType; only `LogCommand` is distinguished by the chunking code. -/
inductive LogType : Type where
  | command
  | other
  deriving DecidableEq, Repr

/-- Logical content of a `raft.Log.Extensions` byte slice: nil, a valid
`types.ChunkInfo` encoding (fields op_num, sequence_num, num_chunks,
next_extensions), or undecodable bytes. -/
inductive ExtBytes : Type where
  | noExt
  | info (opNum seqNum numChunks : Nat) (nextExt : ExtBytes)
  | raw (bytes : List Nat)
  deriving DecidableEq, Repr

/-- raft.Log as used by api.go and the raftchunking FSM. -/
structure RLog : Type where
  index : Nat
  term : Nat
  logType : LogType
  data : List Nat
  extensions : ExtBytes
  deriving DecidableEq, Repr

/-- Result of an FSM Apply: Go `interface{}` holding an error, nil, or the
wrapped machine's response. -/
inductive AResult (ρ : Type) : Type where
  | err (e : GoError)
  | nil
  | resp (r : ρ)
  deriving DecidableEq, Repr

/-- Map insertion, modelling `m[k] = v`. -/
def mupd {α : Type} (m : Nat → Option α) (k : Nat) (v : α) : Nat → Option α :=
  fun q => if q = k then some v else m q

/-- Map deletion, modelling `delete(m, k)`. -/
def mdel {α : Type} (m : Nat → Option α) (k : Nat) : Nat → Option α :=
  fun q => if q = k then none else m q

namespace Middleware

/-- The `ChunkInfo` field carried on a log in the middleware variant's raft
fork: OpID, SequenceNum, NumChunks. -/
structure CI4 : Type where
  opID : Nat
  seqNum : Nat
  numChunks : Nat
  deriving DecidableEq, Repr

/-- raft.Log as used by the middleware ChunkingFSM. -/
structure Log4 : Type where
  index : Nat
  term : Nat
  logType : LogType
  data : List Nat
  chunkInfo : Option CI4
  deriving DecidableEq, Repr

/-- The middleware package's private `chunkInfo` record stored per received
chunk: term, seqNum, data. -/
structure Chunk4 : Type where
  term : Nat
  seqNum : Nat
  data : List Nat
  deriving DecidableEq, Repr

/-- State of the middleware ChunkingFSM: the wrapped FSM's state plus the
pending table `opMap`. -/
structure State4 (σ : Type) : Type where
  ust : σ
  opMap : Nat → Option (List Chunk4)

/-- Reconstruction scan of the middleware Apply: walk the chunks checking
`chunk.seqNum == i` (else ErrMissingChunk) and term consistency against the
first chunk's term (else ErrTermMismatch), concatenating the data. -/
def recon4Aux (term : Nat) : Nat → List Chunk4 → List Nat → Except GoError (List Nat)
  | _, [], acc => .ok acc
  | i, c :: cs, acc =>
    if c.seqNum ≠ i then .error .missingChunk
    else if c.term ≠ term then .error .termMismatch
    else recon4Aux term (i + 1) cs (acc ++ c.data)

/-- Entry point of the reconstruction loop; at i = 0 the reference term is
taken from the first chunk, so the term check cannot fail there. -/
def reconstruct4 : List Chunk4 → Except GoError (List Nat)
  | [] => .ok []
  | c :: cs =>
    if c.seqNum ≠ 0 then .error .missingChunk
    else recon4Aux c.term 1 cs c.data

/-- middleware ChunkingFSM.Apply with explicit fuel. The recursive call on
the reconstructed log always carries `chunkInfo = none`, so fuel 2 suffices
(see `Middleware.Apply`). -/
def apply4Aux {σ ρ : Type} (uapply : σ → Log4 → σ × ρ) :
    Nat → State4 σ → Log4 → Option (State4 σ × AResult ρ)
  | 0, _, _ => none
  | fuel + 1, s, l =>
    match l.chunkInfo with
    | none =>
      let ur := uapply s.ust l
      some (⟨ur.1, s.opMap⟩, .resp ur.2)
    | some ci =>
      if ci.opID = 0 then some (s, .err .invalidOpID)
      else
        let lookup := s.opMap ci.opID
        if lookup = none ∧ ci.seqNum ≠ 0 then some (s, .err .noExistingChunks)
        else
          let chunks0 := lookup.getD []
          if ci.seqNum ≠ chunks0.length then
            some (⟨s.ust, mdel s.opMap ci.opID⟩, .err .seqMismatch)
          else
            let chunks1 := chunks0 ++ [⟨l.term, ci.seqNum, l.data⟩]
            if (ci.seqNum : Int) = (ci.numChunks : Int) - 1 then
              match reconstruct4 chunks1 with
              | .error e => some (s, .err e)
              | .ok finalData =>
                apply4Aux uapply fuel s ⟨l.index, l.term, l.logType, finalData, none⟩
            else
              some (⟨s.ust, mupd s.opMap ci.opID chunks1⟩, .nil)

/-- middleware ChunkingFSM.Apply. The only recursive call is on a log with
no chunk info, which returns at depth one, so total recursion depth is at
most two. -/
def Apply {σ ρ : Type} (uapply : σ → Log4 → σ × ρ) (s : State4 σ) (l : Log4) :
    Option (State4 σ × AResult ρ) :=
  apply4Aux uapply 2 s l

end Middleware

/-- A trace-recording wrapped FSM: the state is the list of logs received
so far, and the response to each log is computed by `respF` from the state
and the log. Instantiating `respF` arbitrarily makes theorems about it
speak about any response behaviour of the wrapped machine. -/
def traceApply4 {ρ : Type} (respF : List Middleware.Log4 → Middleware.Log4 → ρ) :
    List Middleware.Log4 → Middleware.Log4 → List Middleware.Log4 × ρ :=
  fun s l => (s ++ [l], respF s l)

/-- A concrete wrapped FSM matching the repository's MockFSM: it records
each received log's data and responds with the number of logs received. -/
def mockApply4 : List Middleware.Log4 → Middleware.Log4 → List Middleware.Log4 × Nat :=
  traceApply4 (fun s _ => s.length + 1)

/-- C2 (amended): in the contiguous-append (middleware) ChunkingFSM, for
every chunked entry with a nonzero operation id for which a pending entry
exists and whose sequence number does not equal the number of chunks
already received for that operation id, Apply deletes that operation's
pending entry entirely from the pending table and returns the
sequence-mismatch error. -/
theorem C2_seq_mismatch_deletes {σ ρ : Type} (uapply : σ → Middleware.Log4 → σ × ρ)
    (s : Middleware.State4 σ) (l : Middleware.Log4) (ci : Middleware.CI4)
    (cur : List Middleware.Chunk4)
    (hci : l.chunkInfo = some ci) (hop : ci.opID ≠ 0)
    (hcur : s.opMap ci.opID = some cur) (hne : ci.seqNum ≠ cur.length) :
    Middleware.Apply uapply s l =
      some (⟨s.ust, mdel s.opMap ci.opID⟩, .err .seqMismatch)
    ∧ mdel s.opMap ci.opID ci.opID = none := by
  refine ⟨?_, by simp [mdel]⟩
  simp [Middleware.Apply, Middleware.apply4Aux, hci, hop, hcur, hne]

/-- C2 counterexample: the claim as stated quantifies over every chunked
entry whose sequence number differs from the number of chunks already
received. For an entry with operation id 1 and sequence number 3 applied
when no pending entry exists (zero chunks received, so 3 differs), Apply
returns the no-existing-chunks error, not the sequence-mismatch error. -/
theorem C2_cex_no_entry_gives_other_error :
    (3 : Nat) ≠ 0
    ∧ (Middleware.Apply mockApply4 ⟨[], fun _ => none⟩
        ⟨0, 0, .command, [9], some ⟨1, 3, 5⟩⟩).map (fun p => p.2)
      = some (.err .noExistingChunks)
    ∧ GoError.noExistingChunks ≠ GoError.seqMismatch := by
  refine ⟨by decide, ?_, by decide⟩
  decide

/-- Closed witness for `C2_seq_mismatch_deletes`: a pending entry with one
chunk under operation id 1, and an incoming chunk with sequence number 5. -/
theorem C2_seq_mismatch_deletes_witness :
    (Middleware.Log4.mk 0 0 .command [9] (some ⟨1, 5, 9⟩)).chunkInfo = some ⟨1, 5, 9⟩
    ∧ (1 : Nat) ≠ 0
    ∧ (mupd (fun _ => none) 1 [Middleware.Chunk4.mk 0 0 [7]]) 1
        = some [Middleware.Chunk4.mk 0 0 [7]]
    ∧ (5 : Nat) ≠ [Middleware.Chunk4.mk 0 0 [7]].length
    ∧ (Middleware.Apply mockApply4
        ⟨[], mupd (fun _ => none) 1 [Middleware.Chunk4.mk 0 0 [7]]⟩
        ⟨0, 0, .command, [9], some ⟨1, 5, 9⟩⟩ =
        some (⟨[], mdel (mupd (fun _ => none) 1 [Middleware.Chunk4.mk 0 0 [7]]) 1⟩,
          .err .seqMismatch)
      ∧ mdel (mupd (fun _ => none) 1 [Middleware.Chunk4.mk 0 0 [7]]) 1 1 = none) :=
  ⟨rfl, by decide, by simp [mupd], by decide,
    C2_seq_mismatch_deletes mockApply4
      ⟨[], mupd (fun _ => none) 1 [Middleware.Chunk4.mk 0 0 [7]]⟩
      ⟨0, 0, .command, [9], some ⟨1, 5, 9⟩⟩ ⟨1, 5, 9⟩
      [Middleware.Chunk4.mk 0 0 [7]] rfl (by decide) (by simp [mupd]) (by decide)⟩

/-- C4 (amended): in the contiguous-append (middleware) ChunkingFSM, for
every chunked entry with a nonzero operation id and a nonzero sequence
number for which no pending entry exists under its operation id, Apply
returns the no-existing-chunks error and leaves the state (pending table
and wrapped machine) untouched: no pending entry is created and the chunk
is not stored. -/
theorem C4_no_existing_chunks {σ ρ : Type} (uapply : σ → Middleware.Log4 → σ × ρ)
    (s : Middleware.State4 σ) (l : Middleware.Log4) (ci : Middleware.CI4)
    (hci : l.chunkInfo = some ci) (hop : ci.opID ≠ 0)
    (hseq : ci.seqNum ≠ 0) (hnone : s.opMap ci.opID = none) :
    Middleware.Apply uapply s l = some (s, .err .noExistingChunks) := by
  simp [Middleware.Apply, Middleware.apply4Aux, hci, hop, hseq, hnone]

/-- C4 counterexample: the claim as stated quantifies over every chunked
entry with a nonzero sequence number and no pending entry. An entry with
operation id 0 and sequence number 1 on an empty pending table satisfies
that premise, yet Apply returns the invalid-operation error (the zero op
id check fires first), not the no-existing-chunks error. -/
theorem C4_cex_zero_opid_gives_other_error :
    (1 : Nat) ≠ 0
    ∧ (((fun _ => none) : Nat → Option (List Middleware.Chunk4)) 0) = none
    ∧ (Middleware.Apply mockApply4 ⟨[], fun _ => none⟩
        ⟨0, 0, .command, [9], some ⟨0, 1, 5⟩⟩).map (fun p => p.2)
      = some (.err .invalidOpID)
    ∧ GoError.invalidOpID ≠ GoError.noExistingChunks := by
  refine ⟨by decide, rfl, ?_, by decide⟩
  decide

/-- Closed witness for `C4_no_existing_chunks`: operation id 2, sequence
number 3, empty pending table. -/
theorem C4_no_existing_chunks_witness :
    (Middleware.Log4.mk 0 0 .command [9] (some ⟨2, 3, 5⟩)).chunkInfo = some ⟨2, 3, 5⟩
    ∧ (2 : Nat) ≠ 0
    ∧ (3 : Nat) ≠ 0
    ∧ (((fun _ => none) : Nat → Option (List Middleware.Chunk4)) 2) = none
    ∧ Middleware.Apply mockApply4 ⟨[], fun _ => none⟩
        ⟨0, 0, .command, [9], some ⟨2, 3, 5⟩⟩
      = some (⟨[], fun _ => none⟩, .err .noExistingChunks) :=
  ⟨rfl, by decide, by decide, rfl,
    C4_no_existing_chunks mockApply4 ⟨[], fun _ => none⟩
      ⟨0, 0, .command, [9], some ⟨2, 3, 5⟩⟩ ⟨2, 3, 5⟩ rfl (by decide) (by decide) rfl⟩

/-- raft.SuggestedMaxDataSize, the host's maximum suggested entry size. -/
def SuggestedMaxDataSize : Nat := 512 * 1024

/-- The chunk-splitting loop of ChunkingApply: repeatedly read
min(remaining, SuggestedMaxDataSize) bytes from the command buffer. The
fuel argument bounds the iteration count; since every iteration consumes
at least one byte, fuel equal to the command length suffices. -/
def byteChunksAux : Nat → List Nat → List (List Nat)
  | 0, _ => []
  | _ + 1, [] => []
  | fuel + 1, a :: rest =>
    (a :: rest).take SuggestedMaxDataSize ::
      byteChunksAux fuel ((a :: rest).drop SuggestedMaxDataSize)

/-- The byte chunks ChunkingApply builds from a command. -/
def byteChunks (cmd : List Nat) : List (List Nat) :=
  byteChunksAux cmd.length cmd

theorem byteChunksAux_congr :
    ∀ (f1 f2 : Nat) (cmd : List Nat), cmd.length ≤ f1 → cmd.length ≤ f2 →
      byteChunksAux f1 cmd = byteChunksAux f2 cmd := by
  intro f1
  induction f1 with
  | zero =>
    intro f2 cmd h1 _
    have : cmd = [] := List.eq_nil_of_length_eq_zero (Nat.le_zero.mp h1)
    subst this
    cases f2 <;> rfl
  | succ f1 ih =>
    intro f2 cmd h1 h2
    cases f2 with
    | zero =>
      have : cmd = [] := List.eq_nil_of_length_eq_zero (Nat.le_zero.mp h2)
      subst this; rfl
    | succ f2 =>
      cases cmd with
      | nil => rfl
      | cons a rest =>
        simp only [byteChunksAux]
        congr 1
        have hd : ((a :: rest).drop SuggestedMaxDataSize).length ≤ rest.length := by
          simp only [List.length_drop, List.length_cons, SuggestedMaxDataSize]
          omega
        have hr1 : rest.length ≤ f1 := by
          simp only [List.length_cons] at h1; omega
        have hr2 : rest.length ≤ f2 := by
          simp only [List.length_cons] at h2; omega
        exact ih f2 _ (le_trans hd hr1) (le_trans hd hr2)

theorem byteChunks_nil : byteChunks [] = [] := rfl

theorem byteChunks_cons (cmd : List Nat) (h : cmd ≠ []) :
    byteChunks cmd =
      cmd.take SuggestedMaxDataSize :: byteChunks (cmd.drop SuggestedMaxDataSize) := by
  cases cmd with
  | nil => exact absurd rfl h
  | cons a rest =>
    show byteChunksAux (rest.length + 1) (a :: rest) = _
    simp only [byteChunksAux]
    congr 1
    apply byteChunksAux_congr
    · simp only [List.length_drop, List.length_cons, SuggestedMaxDataSize]; omega
    · exact le_rfl

theorem byteChunks_eq_nil_iff (cmd : List Nat) : byteChunks cmd = [] ↔ cmd = [] := by
  constructor
  · intro h
    by_contra hc
    rw [byteChunks_cons cmd hc] at h
    exact List.cons_ne_nil _ _ h
  · intro h; subst h; rfl

/-- Splitting then concatenating reproduces the command. -/
theorem byteChunks_flatten (cmd : List Nat) : (byteChunks cmd).flatten = cmd := by
  suffices H : ∀ (n : Nat) (cmd : List Nat), cmd.length ≤ n →
      (byteChunks cmd).flatten = cmd from H cmd.length cmd le_rfl
  intro n
  induction n with
  | zero =>
    intro cmd h
    have : cmd = [] := List.eq_nil_of_length_eq_zero (Nat.le_zero.mp h)
    subst this; rfl
  | succ n ih =>
    intro cmd h
    cases cmd with
    | nil => rfl
    | cons a rest =>
      rw [byteChunks_cons _ (List.cons_ne_nil a rest)]
      simp only [List.flatten_cons]
      have hle : ((a :: rest).drop SuggestedMaxDataSize).length ≤ n := by
        simp only [List.length_drop, List.length_cons, SuggestedMaxDataSize]
        simp only [List.length_cons] at h
        omega
      rw [ih _ hle]
      exact List.take_append_drop _ _

/-- Every chunk produced by the splitting loop is nonempty, no larger than
the maximum size, and chunks other than the last are exactly the maximum
size. -/
theorem byteChunks_sizes (cmd : List Nat) (i : Nat) (c : List Nat)
    (hc : (byteChunks cmd).get? i = some c) :
    c ≠ [] ∧ c.length ≤ SuggestedMaxDataSize ∧
      (i + 1 < (byteChunks cmd).length → c.length = SuggestedMaxDataSize) := by
  suffices H : ∀ (n : Nat) (cmd : List Nat), cmd.length ≤ n → ∀ (i : Nat) (c : List Nat),
      (byteChunks cmd).get? i = some c →
      c ≠ [] ∧ c.length ≤ SuggestedMaxDataSize ∧
        (i + 1 < (byteChunks cmd).length → c.length = SuggestedMaxDataSize) from
    H cmd.length cmd le_rfl i c hc
  clear hc i c cmd
  intro n
  induction n with
  | zero =>
    intro cmd h i c hc
    have : cmd = [] := List.eq_nil_of_length_eq_zero (Nat.le_zero.mp h)
    subst this
    simp [byteChunks_nil] at hc
  | succ n ih =>
    intro cmd h i c hc
    cases cmd with
    | nil => simp [byteChunks_nil] at hc
    | cons a rest =>
      rw [byteChunks_cons _ (List.cons_ne_nil a rest)] at hc ⊢
      cases i with
      | zero =>
        simp only [List.get?_cons_zero, Option.some.injEq] at hc
        subst hc
        refine ⟨?_, ?_, ?_⟩
        · show (a :: rest).take SuggestedMaxDataSize ≠ []
          simp [SuggestedMaxDataSize]
        · simp
        · intro hlen
          simp only [List.length_cons, Nat.add_lt_add_iff_right] at hlen
          have hne : byteChunks ((a :: rest).drop SuggestedMaxDataSize) ≠ [] := by
            intro h0; rw [h0] at hlen; exact Nat.not_lt_zero _ hlen
          have hd : (a :: rest).drop SuggestedMaxDataSize ≠ [] := by
            intro h0
            exact hne ((byteChunks_eq_nil_iff _).mpr h0)
          have : SuggestedMaxDataSize < (a :: rest).length := by
            by_contra hle
            exact hd (List.drop_eq_nil_of_le (Nat.le_of_not_lt hle))
          simp only [List.length_take]
          omega
      | succ i =>
        simp only [List.get?_cons_succ] at hc
        have hle : ((a :: rest).drop SuggestedMaxDataSize).length ≤ n := by
          simp only [List.length_drop, List.length_cons, SuggestedMaxDataSize]
          simp only [List.length_cons] at h
          omega
        have := ih _ hle i c hc
        refine ⟨this.1, this.2.1, ?_⟩
        intro hlen
        exact this.2.2 (by simpa using Nat.lt_of_succ_lt_succ (by simpa using hlen))

/-- raft.ApplyFuture as an already-resolved handle: Error, Index, Response. -/
structure Future (ρ : Type) : Type where
  err : Option GoError
  index : Nat
  response : ρ
  deriving DecidableEq, Repr

/-- Return value of ChunkingApply: either an errorFuture wrapping a static
error, or a multiFuture over the per-chunk handles. -/
inductive FutureR (ρ : Type) : Type where
  | errF (e : GoError)
  | multiF (futures : List (Future ρ))

/-- The scan inside multiFuture.Error: return the first non-nil error. -/
def firstError {ρ : Type} : List (Future ρ) → Option GoError
  | [] => none
  | f :: fs =>
    match f.err with
    | some e => some e
    | none => firstError fs

/-- errorFuture.Error / multiFuture.Error. -/
def FutureR.Error {ρ : Type} : FutureR ρ → Option GoError
  | .errF e => some e
  | .multiF fs => firstError fs

/-- errorFuture.Index (always 0) / multiFuture.Index (last handle's index,
0 as an escape hatch for an empty handle list). -/
def FutureR.Index {ρ : Type} : FutureR ρ → Nat
  | .errF _ => 0
  | .multiF fs =>
    match fs.getLast? with
    | none => 0
    | some f => f.index

/-- errorFuture.Response (nil) / multiFuture.Response (last handle's
response, nil escape hatch for an empty handle list). -/
def FutureR.Response {ρ : Type} : FutureR ρ → Option ρ
  | .errF _ => none
  | .multiF fs =>
    match fs.getLast? with
    | none => none
    | some f => some f.response

theorem firstError_eq_none {ρ : Type} (fs : List (Future ρ))
    (h : ∀ f ∈ fs, f.err = none) : firstError fs = none := by
  induction fs with
  | nil => rfl
  | cons f rest ih =>
    have hf : f.err = none := h f (List.mem_cons_self f rest)
    simp only [firstError, hf]
    exact ih fun g hg => h g (List.mem_cons_of_mem f hg)

theorem firstError_eq_first {ρ : Type} (fs1 : List (Future ρ)) (f : Future ρ)
    (fs2 : List (Future ρ)) (h1 : ∀ g ∈ fs1, g.err = none) (h2 : f.err.isSome) :
    firstError (fs1 ++ f :: fs2) = f.err := by
  induction fs1 with
  | nil =>
    obtain ⟨e, he⟩ := Option.isSome_iff_exists.mp h2
    simp [firstError, he]
  | cons g rest ih =>
    have hg : g.err = none := h1 g (List.mem_cons_self g rest)
    simp only [List.cons_append, firstError, hg]
    exact ih fun q hq => h1 q (List.mem_cons_of_mem g hq)

/-- C5: for an aggregate (multi) future over one or more chunk handles,
Error() is the first non-nil error scanning the handles in submission
order (nil when none errs), and Index() and Response() are those of the
last-submitted chunk's handle. -/
theorem C5_multifuture {ρ : Type} (fs : List (Future ρ)) (h : fs ≠ []) :
    ((∀ f ∈ fs, f.err = none) → (FutureR.multiF fs).Error = none)
    ∧ (∀ fs1 f fs2, fs = fs1 ++ f :: fs2 → (∀ g ∈ fs1, g.err = none) →
        f.err.isSome → (FutureR.multiF fs).Error = f.err)
    ∧ (FutureR.multiF fs).Index = (fs.getLast h).index
    ∧ (FutureR.multiF fs).Response = some ((fs.getLast h).response) := by
  refine ⟨fun hall => firstError_eq_none fs hall, ?_, ?_, ?_⟩
  · intro fs1 f fs2 heq h1 h2
    subst heq
    exact firstError_eq_first fs1 f fs2 h1 h2
  · show (match fs.getLast? with | none => 0 | some f => f.index) = _
    rw [List.getLast?_eq_getLast fs h]
  · show (match fs.getLast? with | none => none | some f => some f.response) = _
    rw [List.getLast?_eq_getLast fs h]

/-- Closed witness for `C5_multifuture`: two handles, the first errored. -/
theorem C5_multifuture_witness :
    (([⟨some (.oracleFail 1), 3, 7⟩, ⟨none, 5, 9⟩] : List (Future Nat)) ≠ [])
    ∧ (FutureR.multiF ([⟨some (.oracleFail 1), 3, 7⟩, ⟨none, 5, 9⟩] :
        List (Future Nat))).Index = 5
    ∧ (FutureR.multiF ([⟨some (.oracleFail 1), 3, 7⟩, ⟨none, 5, 9⟩] :
        List (Future Nat))).Response = some 9
    ∧ (FutureR.multiF ([⟨some (.oracleFail 1), 3, 7⟩, ⟨none, 5, 9⟩] :
        List (Future Nat))).Error = some (.oracleFail 1) := by
  have H := C5_multifuture
    ([⟨some (.oracleFail 1), 3, 7⟩, ⟨none, 5, 9⟩] : List (Future Nat)) (by decide)
  refine ⟨by decide, ?_, ?_, ?_⟩
  · rw [H.2.2.1]; rfl
  · rw [H.2.2.2]; rfl
  · exact H.2.1 [] ⟨some (.oracleFail 1), 3, 7⟩ [⟨none, 5, 9⟩] rfl (by simp) (by decide)

/-- Outcomes of ChunkingApply's external collaborators: the op-id read from
crypto/rand (already converted by binary.BigEndian.Uint64, covering both a
read error and a short read as an error outcome), an injected failure of
the command-buffer read, and an injected failure of proto.Marshal on the
i-th chunk's metadata. -/
structure EncOracle : Type where
  randRead : Except GoError Nat
  readErr : Option GoError
  marshalErr : Nat → Option GoError

/-- Building one chunk's log in ChunkingApply: metadata {op id, uint32(i),
uint32(N)} with the caller's extensions attached only on the last chunk,
or the errwrap-wrapped marshal failure. The produced raft.Log carries only
Data and Extensions (term/index/type are zero values; LogCommand is 0). -/
def marshalOne (o : EncOracle) (id N : Nat) (ext : ExtBytes) (i : Nat) (c : List Nat) :
    Except GoError RLog :=
  match o.marshalErr i with
  | some e => .error (.marshalWrap e)
  | none =>
    .ok ⟨0, 0, .command, c,
      .info id (i % 2 ^ 32) (N % 2 ^ 32) (if i = N - 1 then ext else .noExt)⟩

/-- The metadata-marshaling loop of ChunkingApply over the byte chunks,
starting at chunk index `i`; the first failure aborts the whole call. -/
def marshalAllAux (o : EncOracle) (id N : Nat) (ext : ExtBytes) :
    Nat → List (List Nat) → Except GoError (List RLog)
  | _, [] => .ok []
  | i, c :: cs =>
    match marshalOne o id N ext i c with
    | .error e => .error e
    | .ok l =>
      match marshalAllAux o id N ext (i + 1) cs with
      | .error e => .error e
      | .ok ls => .ok (l :: ls)

/-- The full marshaling pass of ChunkingApply for a command. -/
def marshalAll (o : EncOracle) (id : Nat) (cmd : List Nat) (ext : ExtBytes) :
    Except GoError (List RLog) :=
  marshalAllAux o id (byteChunks cmd).length ext 0 (byteChunks cmd)

/-- The logs ChunkingApply builds on its success path, starting at chunk
index `i` of a declared total `N`. -/
def chunkLogsAux (id N : Nat) (ext : ExtBytes) : Nat → List (List Nat) → List RLog
  | _, [] => []
  | i, c :: cs =>
    ⟨0, 0, .command, c,
      .info id (i % 2 ^ 32) (N % 2 ^ 32) (if i = N - 1 then ext else .noExt)⟩ ::
      chunkLogsAux id N ext (i + 1) cs

/-- All logs ChunkingApply builds for a command on its success path. -/
def chunkLogs (id : Nat) (cmd : List Nat) (ext : ExtBytes) : List RLog :=
  chunkLogsAux id (byteChunks cmd).length ext 0 (byteChunks cmd)

/-- ChunkingApply: generate an op id, split the command into chunks, attach
marshaled chunk metadata, then submit every log through the apply
primitive. Returns the resulting future together with the list of logs
submitted to the apply primitive, in submission order (empty when the call
fails before the submission loop). -/
def ChunkingApply {ρf : Type} (o : EncOracle) (cmd : List Nat) (ext : ExtBytes)
    (applyFunc : RLog → Future ρf) : FutureR ρf × List RLog :=
  match o.randRead with
  | .error e => (.errF e, [])
  | .ok id =>
    match cmd, o.readErr with
    | _ :: _, some e => (.errF e, [])
    | _, _ =>
      match marshalAll o id cmd ext with
      | .error e => (.errF e, [])
      | .ok logs => (.multiF (logs.map applyFunc), logs)

theorem marshalAllAux_clean (o : EncOracle) (id N : Nat) (ext : ExtBytes)
    (hm : ∀ i, o.marshalErr i = none) :
    ∀ (cs : List (List Nat)) (i : Nat),
      marshalAllAux o id N ext i cs = .ok (chunkLogsAux id N ext i cs) := by
  intro cs
  induction cs with
  | nil => intro i; rfl
  | cons c rest ih =>
    intro i
    simp only [marshalAllAux, marshalOne, hm i, ih (i + 1), chunkLogsAux]

/-- On a clean run, the logs submitted by ChunkingApply are exactly
`chunkLogs`. -/
theorem ChunkingApply_clean {ρf : Type} (o : EncOracle) (cmd : List Nat) (ext : ExtBytes)
    (applyFunc : RLog → Future ρf) (id : Nat)
    (hid : o.randRead = .ok id) (hread : o.readErr = none)
    (hm : ∀ i, o.marshalErr i = none) :
    ChunkingApply o cmd ext applyFunc =
      (.multiF ((chunkLogs id cmd ext).map applyFunc), chunkLogs id cmd ext) := by
  have hma : marshalAll o id cmd ext = .ok (chunkLogs id cmd ext) :=
    marshalAllAux_clean o id (byteChunks cmd).length ext hm (byteChunks cmd) 0
  cases cmd with
  | nil => simp [ChunkingApply, hid, hread, hma]
  | cons a rest => simp [ChunkingApply, hid, hread, hma]

/-- C6: if random op-id generation fails, reading the command buffer
fails, or marshaling some chunk's metadata fails, ChunkingApply returns an
already-failed future carrying that error (errwrap-wrapped for the marshal
case) and submits no log to the apply primitive. -/
theorem C6_failfast {ρf : Type} (o : EncOracle) (cmd : List Nat) (ext : ExtBytes)
    (applyFunc : RLog → Future ρf) :
    (∀ e, o.randRead = .error e → ChunkingApply o cmd ext applyFunc = (.errF e, []))
    ∧ (∀ id e, o.randRead = .ok id → o.readErr = some e → cmd ≠ [] →
        ChunkingApply o cmd ext applyFunc = (.errF e, []))
    ∧ (∀ id e, o.randRead = .ok id → o.readErr = none →
        marshalAll o id cmd ext = .error e →
        ChunkingApply o cmd ext applyFunc = (.errF e, [])) := by
  refine ⟨?_, ?_, ?_⟩
  · intro e he
    simp [ChunkingApply, he]
  · intro id e hid hre hcmd
    cases cmd with
    | nil => exact absurd rfl hcmd
    | cons a rest => simp [ChunkingApply, hid, hre]
  · intro id e hid hre hma
    cases cmd with
    | nil => simp [ChunkingApply, hid, hre, hma]
    | cons a rest => simp [ChunkingApply, hid, hre, hma]

/-- Closed witness for `C6_failfast` (first failure mode): an oracle whose
random read fails. -/
theorem C6_failfast_witness :
    (EncOracle.mk (.error (.oracleFail 7)) none fun _ => none).randRead
      = .error (.oracleFail 7)
    ∧ ChunkingApply (EncOracle.mk (.error (.oracleFail 7)) none fun _ => none)
        [1, 2] .noExt (fun _ => (⟨none, 0, 0⟩ : Future Nat))
      = (.errF (.oracleFail 7), []) :=
  ⟨rfl, (C6_failfast (EncOracle.mk (.error (.oracleFail 7)) none fun _ => none)
    [1, 2] .noExt (fun _ => (⟨none, 0, 0⟩ : Future Nat))).1 (.oracleFail 7) rfl⟩

theorem chunkLogsAux_length (id N : Nat) (ext : ExtBytes) :
    ∀ (cs : List (List Nat)) (j : Nat), (chunkLogsAux id N ext j cs).length = cs.length := by
  intro cs
  induction cs with
  | nil => intro j; rfl
  | cons c rest ih => intro j; simp [chunkLogsAux, ih (j + 1)]

theorem chunkLogsAux_map_data (id N : Nat) (ext : ExtBytes) :
    ∀ (cs : List (List Nat)) (j : Nat), (chunkLogsAux id N ext j cs).map RLog.data = cs := by
  intro cs
  induction cs with
  | nil => intro j; rfl
  | cons c rest ih => intro j; simp [chunkLogsAux, ih (j + 1)]

theorem chunkLogsAux_get? (id N : Nat) (ext : ExtBytes) :
    ∀ (cs : List (List Nat)) (j i : Nat),
      (chunkLogsAux id N ext j cs).get? i =
        (cs.get? i).map fun c =>
          ⟨0, 0, .command, c,
            .info id ((j + i) % 2 ^ 32) (N % 2 ^ 32)
              (if j + i = N - 1 then ext else .noExt)⟩ := by
  intro cs
  induction cs with
  | nil => intro j i; cases i <;> rfl
  | cons c rest ih =>
    intro j i
    cases i with
    | zero => simp [chunkLogsAux]
    | succ i =>
      have harith : j + 1 + i = j + (i + 1) := by omega
      simp only [chunkLogsAux, List.get?_cons_succ, ih (j + 1) i, harith]

/-- An auxiliary oracle whose collaborators all succeed, with a fixed op
id; used to instantiate encoder theorems at concrete inputs. -/
def okOracle (id : Nat) : EncOracle :=
  ⟨.ok id, none, fun _ => none⟩

/-- C7: on a clean run of ChunkingApply, the command is partitioned into
consecutive chunks of at most the maximum suggested entry size, all but
the last exactly that size; chunk i of N carries metadata {op id, i, N}
with the same op id throughout, the trailing extension only on chunk N-1;
the logs are submitted in exactly that sequence order; and a zero-length
command yields zero chunks. (The bound on the number of chunks reflects
the uint32 conversion in the metadata.) -/
theorem C7_chunk_partition {ρf : Type} (o : EncOracle) (cmd : List Nat) (ext : ExtBytes)
    (applyFunc : RLog → Future ρf) (id : Nat)
    (hid : o.randRead = .ok id) (hread : o.readErr = none)
    (hm : ∀ i, o.marshalErr i = none) (hN : (byteChunks cmd).length < 2 ^ 32) :
    (ChunkingApply o cmd ext applyFunc).2 = chunkLogs id cmd ext
    ∧ (cmd = [] → chunkLogs id cmd ext = [])
    ∧ (chunkLogs id cmd ext).length = (byteChunks cmd).length
    ∧ ((chunkLogs id cmd ext).map RLog.data).flatten = cmd
    ∧ ∀ i c, (byteChunks cmd).get? i = some c →
        (chunkLogs id cmd ext).get? i = some ⟨0, 0, .command, c,
            .info id i (byteChunks cmd).length
              (if i = (byteChunks cmd).length - 1 then ext else .noExt)⟩
        ∧ c ≠ [] ∧ c.length ≤ SuggestedMaxDataSize
        ∧ (i + 1 < (byteChunks cmd).length → c.length = SuggestedMaxDataSize) := by
  refine ⟨?_, ?_, ?_, ?_, ?_⟩
  · rw [ChunkingApply_clean o cmd ext applyFunc id hid hread hm]
  · intro h; subst h; rfl
  · exact chunkLogsAux_length id _ ext _ 0
  · show ((chunkLogsAux id (byteChunks cmd).length ext 0 (byteChunks cmd)).map
      RLog.data).flatten = cmd
    rw [chunkLogsAux_map_data id (byteChunks cmd).length ext (byteChunks cmd) 0]
    exact byteChunks_flatten cmd
  · intro i c hc
    have hi : i < (byteChunks cmd).length := by
      rcases List.get?_eq_some.mp hc with ⟨h, _⟩
      exact h
    have hsz := byteChunks_sizes cmd i c hc
    refine ⟨?_, hsz.1, hsz.2.1, hsz.2.2⟩
    rw [show chunkLogs id cmd ext =
        chunkLogsAux id (byteChunks cmd).length ext 0 (byteChunks cmd) from rfl]
    rw [chunkLogsAux_get? id (byteChunks cmd).length ext (byteChunks cmd) 0 i, hc]
    simp only [Option.map_some', Option.some.injEq, Nat.zero_add]
    have h1 : i % 2 ^ 32 = i := Nat.mod_eq_of_lt (lt_trans hi hN)
    have h2 : (byteChunks cmd).length % 2 ^ 32 = (byteChunks cmd).length :=
      Nat.mod_eq_of_lt hN
    rw [h1, h2]

/-- Closed witness for `C7_chunk_partition`: the two-byte command [1, 2]
with op id 5 yields a single chunk carrying it whole. -/
theorem C7_chunk_partition_witness :
    (okOracle 5).randRead = .ok 5
    ∧ (okOracle 5).readErr = none
    ∧ (∀ i, (okOracle 5).marshalErr i = none)
    ∧ (byteChunks [1, 2]).length < 2 ^ 32
    ∧ ((ChunkingApply (okOracle 5) [1, 2] .noExt
          (fun _ => (⟨none, 0, 0⟩ : Future Nat))).2 = chunkLogs 5 [1, 2] .noExt
      ∧ (([1, 2] : List Nat) = [] → chunkLogs 5 [1, 2] .noExt = [])
      ∧ (chunkLogs 5 [1, 2] .noExt).length = (byteChunks [1, 2]).length
      ∧ ((chunkLogs 5 [1, 2] .noExt).map RLog.data).flatten = [1, 2]
      ∧ ∀ i c, (byteChunks [1, 2]).get? i = some c →
          (chunkLogs 5 [1, 2] .noExt).get? i = some ⟨0, 0, .command, c,
              .info 5 i (byteChunks [1, 2]).length
                (if i = (byteChunks [1, 2]).length - 1 then ExtBytes.noExt else .noExt)⟩
          ∧ c ≠ [] ∧ c.length ≤ SuggestedMaxDataSize
          ∧ (i + 1 < (byteChunks [1, 2]).length → c.length = SuggestedMaxDataSize)) :=
  ⟨rfl, rfl, fun _ => rfl, by decide,
    C7_chunk_partition (okOracle 5) [1, 2] .noExt
      (fun _ => (⟨none, 0, 0⟩ : Future Nat)) 5 rfl rfl (fun _ => rfl) (by decide)⟩

namespace Raftchunking

/-- Nesting depth of extension metadata; each recursive Apply call inside
reconstruction strictly decreases it, so it bounds the recursion depth. -/
def extDepth : ExtBytes → Nat
  | .noExt => 0
  | .raw _ => 1
  | .info _ _ _ nx => 1 + extDepth nx

/-- State of the raftchunking ChunkingFSM: wrapped FSM state, the pending
table `opMap` (slots are nil pointers or `&ChunkInfo{Data: d}`), and the
last observed term. -/
structure State3 (σ : Type) : Type where
  ust : σ
  opMap : Nat → Option (List (Option (List Nat)))
  lastTerm : Nat

/-- The per-slot test of the completeness scan: `chunk == nil ||
len(chunk.Data) == 0` means the slot does not count as received. -/
def chunkPresent : Option (List Nat) → Bool
  | none => false
  | some d => !d.isEmpty

/-- The completeness scan over an operation's chunk slice. -/
def chunksComplete (cs : List (Option (List Nat))) : Bool :=
  cs.all chunkPresent

/-- The reconstruction loop: append each slot's data in order. (The scan
has already guaranteed every slot is non-nil when this runs.) -/
def reconstructData (cs : List (Option (List Nat))) : List Nat :=
  cs.foldl (fun acc o => acc ++ o.getD []) []

/-- raftchunking ChunkingFSM.Apply with explicit fuel. Mirrors the Go
code: pass through non-command or extension-less entries; on a term change
clear the whole pending table and record the new term; decode the chunk
metadata (an undecodable extension yields the wrapped unmarshal error);
look up or allocate the chunk slice (length = declared NumChunks); write
the chunk at index SequenceNum (out of range panics: `none`); if the scan
finds every slot present, reconstruct and recursively apply a synthetic
entry carrying the final data and the chunk info's NextExtensions,
deleting the pending entry; otherwise store the updated slice and return
nil. -/
def apply3Aux {σ ρ : Type} (uapply : σ → RLog → σ × ρ) :
    Nat → State3 σ → RLog → Option (State3 σ × AResult ρ)
  | 0, _, _ => none
  | fuel + 1, s, l =>
    match l.extensions with
    | .noExt =>
      let ur := uapply s.ust l
      some (⟨ur.1, s.opMap, s.lastTerm⟩, .resp ur.2)
    | .raw _ =>
      if l.logType ≠ .command then
        let ur := uapply s.ust l
        some (⟨ur.1, s.opMap, s.lastTerm⟩, .resp ur.2)
      else
        let s1 := if l.term ≠ s.lastTerm then ⟨s.ust, fun _ => none, l.term⟩ else s
        some (s1, .err .unmarshalFail)
    | .info opNum seqNum numChunks nextExt =>
      if l.logType ≠ .command then
        let ur := uapply s.ust l
        some (⟨ur.1, s.opMap, s.lastTerm⟩, .resp ur.2)
      else
        let s1 := if l.term ≠ s.lastTerm then ⟨s.ust, fun _ => none, l.term⟩ else s
        let chunks0 :=
          match s1.opMap opNum with
          | some cs => cs
          | none => List.replicate numChunks none
        if seqNum < chunks0.length then
          let newChunks := chunks0.set seqNum (some l.data)
          let m1 := mupd s1.opMap opNum newChunks
          if chunksComplete newChunks then
            apply3Aux uapply fuel ⟨s1.ust, mdel m1 opNum, s1.lastTerm⟩
              ⟨l.index, l.term, l.logType, reconstructData newChunks, nextExt⟩
          else
            some (⟨s1.ust, m1, s1.lastTerm⟩, .nil)
        else none

/-- raftchunking ChunkingFSM.Apply: the recursion depth is bounded by the
extension nesting depth, so `extDepth + 1` fuel never runs out. -/
def Apply {σ ρ : Type} (uapply : σ → RLog → σ × ρ) (s : State3 σ) (l : RLog) :
    Option (State3 σ × AResult ρ) :=
  apply3Aux uapply (extDepth l.extensions + 1) s l

/-- Apply a sequence of logs in order, stopping at a panic, returning the
final state and the result of the last Apply (nil for the empty list). -/
def ApplyAll {σ ρ : Type} (uapply : σ → RLog → σ × ρ) :
    State3 σ → List RLog → Option (State3 σ × AResult ρ)
  | s, [] => some (s, .nil)
  | s, l :: ls =>
    match Apply uapply s l with
    | none => none
    | some (s', r) =>
      match ls with
      | [] => some (s', r)
      | _ :: _ => ApplyAll uapply s' ls

end Raftchunking

/-- A trace-recording wrapped FSM over `RLog`; the state lists the logs
received so far, responses are computed by an arbitrary `respF`. -/
def traceApply3 {ρ : Type} (respF : List RLog → RLog → ρ) :
    List RLog → RLog → List RLog × ρ :=
  fun s l => (s ++ [l], respF s l)

/-- A concrete wrapped FSM matching the repository's MockFSM. -/
def mockApply3 : List RLog → RLog → List RLog × Nat :=
  traceApply3 (fun s _ => s.length + 1)

/-- Helper: on a chunked command entry whose term differs from the last
observed term, Apply behaves exactly as if the pending table had already
been cleared and the new term recorded. -/
theorem apply3_term_normalize {σ ρ : Type} (uapply : σ → RLog → σ × ρ)
    (s : Raftchunking.State3 σ) (l : RLog)
    (hty : l.logType = .command) (hext : l.extensions ≠ .noExt)
    (hterm : l.term ≠ s.lastTerm) :
    Raftchunking.Apply uapply s l =
      Raftchunking.Apply uapply ⟨s.ust, fun _ => none, l.term⟩ l := by
  cases hx : l.extensions with
  | noExt => exact absurd hx hext
  | raw b =>
    simp [Raftchunking.Apply, Raftchunking.apply3Aux, hx, hty, hterm]
  | info op seq cnt nx =>
    simp [Raftchunking.Apply, Raftchunking.apply3Aux, hx, hty, hterm]

/-- C8: an entry that carries no chunk metadata (nil extensions) is
forwarded unchanged to the wrapped machine; the decorator returns the
wrapped machine's result as-is and leaves the pending table and last
observed term untouched. -/
theorem C8_passthrough {σ ρ : Type} (uapply : σ → RLog → σ × ρ)
    (s : Raftchunking.State3 σ) (l : RLog) (h : l.extensions = .noExt) :
    Raftchunking.Apply uapply s l =
      some (⟨(uapply s.ust l).1, s.opMap, s.lastTerm⟩, .resp (uapply s.ust l).2) := by
  simp [Raftchunking.Apply, Raftchunking.apply3Aux, h, Raftchunking.extDepth]

/-- Closed witness for `C8_passthrough`: a plain entry against a state
with one pending operation. -/
theorem C8_passthrough_witness :
    (RLog.mk 4 2 .command [3, 1] .noExt).extensions = .noExt
    ∧ Raftchunking.Apply mockApply3
        ⟨[], mupd (fun _ => none) 9 [none], 2⟩ ⟨4, 2, .command, [3, 1], .noExt⟩
      = some (⟨(mockApply3 [] ⟨4, 2, .command, [3, 1], .noExt⟩).1,
          mupd (fun _ => none) 9 [none], 2⟩,
          .resp (mockApply3 [] ⟨4, 2, .command, [3, 1], .noExt⟩).2) :=
  ⟨rfl, C8_passthrough mockApply3
    ⟨[], mupd (fun _ => none) 9 [none], 2⟩ ⟨4, 2, .command, [3, 1], .noExt⟩ rfl⟩

/-- C3: for a chunked command entry whose term differs from the term last
observed by the instance, Apply clears the entire pending table (every
operation id) and records the new term before any chunk processing: the
call is indistinguishable from the same call on a state whose pending
table is empty and whose last observed term is the entry's term, so no
pending entry survives the term change. -/
theorem C3_term_change_clears {σ ρ : Type} (uapply : σ → RLog → σ × ρ)
    (s : Raftchunking.State3 σ) (l : RLog)
    (hty : l.logType = .command) (hext : l.extensions ≠ .noExt)
    (hterm : l.term ≠ s.lastTerm) :
    Raftchunking.Apply uapply s l =
      Raftchunking.Apply uapply ⟨s.ust, fun _ => none, l.term⟩ l
    ∧ ∀ op, ((fun _ => none) : Nat → Option (List (Option (List Nat)))) op = none :=
  ⟨apply3_term_normalize uapply s l hty hext hterm, fun _ => rfl⟩

/-- Closed witness for `C3_term_change_clears`: a chunked entry with term 3
against an instance whose last observed term is 5 and which holds a
pending entry for another operation. -/
theorem C3_term_change_clears_witness :
    (RLog.mk 0 3 .command [1] (.info 1 0 2 .noExt)).logType = .command
    ∧ (RLog.mk 0 3 .command [1] (.info 1 0 2 .noExt)).extensions ≠ .noExt
    ∧ (RLog.mk 0 3 .command [1] (.info 1 0 2 .noExt)).term ≠
        (Raftchunking.State3.mk ([] : List RLog)
          (mupd (fun _ => none) 9 [none]) 5).lastTerm
    ∧ (Raftchunking.Apply mockApply3
          ⟨[], mupd (fun _ => none) 9 [none], 5⟩ ⟨0, 3, .command, [1], .info 1 0 2 .noExt⟩
        = Raftchunking.Apply mockApply3
          ⟨[], fun _ => none, 3⟩ ⟨0, 3, .command, [1], .info 1 0 2 .noExt⟩
      ∧ ∀ op, ((fun _ => none) : Nat → Option (List (Option (List Nat)))) op = none) :=
  ⟨rfl, by decide, by decide,
    C3_term_change_clears mockApply3
      ⟨[], mupd (fun _ => none) 9 [none], 5⟩ ⟨0, 3, .command, [1], .info 1 0 2 .noExt⟩
      rfl (by decide) (by decide)⟩

/-- The length of the chunk slice Apply indexes into for operation `op`:
after the term check, the stored pending slice's length if one exists,
otherwise the chunk count `cnt` declared by the entry that is about to
create the slice. -/
def pendingSliceLen {σ : Type} (s : Raftchunking.State3 σ) (l : RLog) (op cnt : Nat) : Nat :=
  match (if l.term ≠ s.lastTerm then
      (fun _ => none : Nat → Option (List (Option (List Nat)))) else s.opMap) op with
  | some cs => cs.length
  | none => cnt

/-- C9: the sparse-placeholder ChunkingFSM allocates an operation's chunk
slice with length equal to the NumChunks declared by the chunk that
creates the pending entry, writes at index SequenceNum with no bounds
check, and panics exactly when the sequence number is not strictly less
than that slice's length; whenever Apply returns, any surviving slice for
the operation still has the initially allocated length. (Stated for
entries whose metadata carries no nested extensions, as the encoder
produces when no trailing extension is supplied.) -/
theorem C9_index_bound {σ ρ : Type} (uapply : σ → RLog → σ × ρ)
    (s : Raftchunking.State3 σ) (l : RLog) (op seq cnt : Nat)
    (hty : l.logType = .command) (hext : l.extensions = .info op seq cnt .noExt) :
    (Raftchunking.Apply uapply s l = none ↔ pendingSliceLen s l op cnt ≤ seq)
    ∧ ∀ s' r, Raftchunking.Apply uapply s l = some (s', r) →
        ∀ cs, s'.opMap op = some cs → cs.length = pendingSliceLen s l op cnt := by
  have hfuel : Raftchunking.Apply uapply s l = Raftchunking.apply3Aux uapply 2 s l := by
    simp [Raftchunking.Apply, hext, Raftchunking.extDepth]
  rw [hfuel]
  simp only [Raftchunking.apply3Aux, hext, hty, ne_eq, not_true_eq_false, if_false,
    pendingSliceLen]
  by_cases hterm : l.term = s.lastTerm
  · simp only [hterm, not_true_eq_false, if_false]
    cases hop : s.opMap op with
    | none =>
      simp only [hop, List.length_replicate]
      by_cases hseq : seq < cnt
      · simp only [hseq, if_true]
        by_cases hcomp :
            Raftchunking.chunksComplete ((List.replicate cnt none).set seq (some l.data)) = true
        · simp only [hcomp, if_true, Raftchunking.apply3Aux]
          constructor
          · simp only [Option.some_ne_none, false_iff]
            omega
          · intro s' r hsr cs hcs
            rcases Option.some.injEq _ _ ▸ hsr with h
            have hs' : s'.opMap = mdel (mupd s.opMap op
                ((List.replicate cnt none).set seq (some l.data))) op := by
              have := congrArg (fun p => p.1.opMap) (Option.some.inj hsr)
              simpa using this.symm
            rw [hs'] at hcs
            simp [mdel] at hcs
        · rw [if_neg hcomp]
          constructor
          · simp only [Option.some_ne_none, false_iff]
            omega
          · intro s' r hsr cs hcs
            have hs' : s'.opMap = mupd s.opMap op
                ((List.replicate cnt none).set seq (some l.data)) := by
              have := congrArg (fun p => p.1.opMap) (Option.some.inj hsr)
              simpa using this.symm
            rw [hs'] at hcs
            simp [mupd] at hcs
            rw [← hcs]
            simp
      · simp only [hseq, if_false]
        constructor
        · simp only [true_iff]
          omega
        · intro s' r hsr
          exact absurd hsr (by simp)
    | some cs0 =>
      simp only [hop]
      by_cases hseq : seq < cs0.length
      · simp only [hseq, if_true]
        by_cases hcomp : Raftchunking.chunksComplete (cs0.set seq (some l.data)) = true
        · simp only [hcomp, if_true, Raftchunking.apply3Aux]
          constructor
          · simp only [Option.some_ne_none, false_iff]
            omega
          · intro s' r hsr cs hcs
            have hs' : s'.opMap = mdel (mupd s.opMap op (cs0.set seq (some l.data))) op := by
              have := congrArg (fun p => p.1.opMap) (Option.some.inj hsr)
              simpa using this.symm
            rw [hs'] at hcs
            simp [mdel] at hcs
        · rw [if_neg hcomp]
          constructor
          · simp only [Option.some_ne_none, false_iff]
            omega
          · intro s' r hsr cs hcs
            have hs' : s'.opMap = mupd s.opMap op (cs0.set seq (some l.data)) := by
              have := congrArg (fun p => p.1.opMap) (Option.some.inj hsr)
              simpa using this.symm
            rw [hs'] at hcs
            simp [mupd] at hcs
            rw [← hcs]
            simp
      · simp only [hseq, if_false]
        constructor
        · simp only [true_iff]
          omega
        · intro s' r hsr
          exact absurd hsr (by simp)
  · have hterm' : ¬ l.term = s.lastTerm := hterm
    simp only [hterm', not_false_eq_true, if_true]
    by_cases hseq : seq < cnt
    · simp only [List.length_replicate, hseq, if_true]
      by_cases hcomp :
          Raftchunking.chunksComplete ((List.replicate cnt none).set seq (some l.data)) = true
      · simp only [hcomp, if_true, Raftchunking.apply3Aux]
        constructor
        · simp only [Option.some_ne_none, false_iff]
          omega
        · intro s' r hsr cs hcs
          have hs' : s'.opMap = mdel (mupd (fun _ => none) op
              ((List.replicate cnt none).set seq (some l.data))) op := by
            have := congrArg (fun p => p.1.opMap) (Option.some.inj hsr)
            simpa using this.symm
          rw [hs'] at hcs
          simp [mdel] at hcs
      · rw [if_neg hcomp]
        constructor
        · simp only [Option.some_ne_none, false_iff]
          omega
        · intro s' r hsr cs hcs
          have hs' : s'.opMap = mupd (fun _ => none) op
              ((List.replicate cnt none).set seq (some l.data)) := by
            have := congrArg (fun p => p.1.opMap) (Option.some.inj hsr)
            simpa using this.symm
          rw [hs'] at hcs
          simp [mupd] at hcs
          rw [← hcs]
          simp
    · simp only [List.length_replicate, hseq, if_false]
      constructor
      · simp only [true_iff]
        omega
      · intro s' r hsr
        exact absurd hsr (by simp)

/-- Closed witness for `C9_index_bound`: a fresh table and a first chunk
declaring two chunks. -/
theorem C9_index_bound_witness :
    (RLog.mk 0 0 .command [5] (.info 1 0 2 .noExt)).logType = .command
    ∧ (RLog.mk 0 0 .command [5] (.info 1 0 2 .noExt)).extensions = .info 1 0 2 .noExt
    ∧ ((Raftchunking.Apply mockApply3
          (⟨[], fun _ => none, 0⟩ : Raftchunking.State3 (List RLog))
          ⟨0, 0, .command, [5], .info 1 0 2 .noExt⟩ = none
        ↔ pendingSliceLen (⟨[], fun _ => none, 0⟩ : Raftchunking.State3 (List RLog))
            ⟨0, 0, .command, [5], .info 1 0 2 .noExt⟩ 1 2 ≤ 0)
      ∧ ∀ s' r, Raftchunking.Apply mockApply3
            (⟨[], fun _ => none, 0⟩ : Raftchunking.State3 (List RLog))
            ⟨0, 0, .command, [5], .info 1 0 2 .noExt⟩ = some (s', r) →
          ∀ cs, s'.opMap 1 = some cs →
            cs.length = pendingSliceLen
              (⟨[], fun _ => none, 0⟩ : Raftchunking.State3 (List RLog))
              ⟨0, 0, .command, [5], .info 1 0 2 .noExt⟩ 1 2) :=
  ⟨rfl, rfl, C9_index_bound mockApply3
    (⟨[], fun _ => none, 0⟩ : Raftchunking.State3 (List RLog))
    ⟨0, 0, .command, [5], .info 1 0 2 .noExt⟩ 1 0 2 rfl rfl⟩

/-- C10 (amended): in the sparse-placeholder ChunkingFSM, the completeness
scan treats a stored chunk whose payload is empty exactly like a missing
chunk: as long as the operation's slice, after the incoming chunk is
written, still has a slot that is nil or holds empty data, Apply returns
nil, the slice (with the incoming chunk written in place) stays in the
pending table, and nothing is forwarded to the wrapped machine. However,
an empty stored chunk is not permanent: a later chunk with the same
sequence number overwrites the slot, after which reconstruction can
complete and remove the entry (see the counterexample). -/
theorem C10_empty_chunk_blocks {σ ρ : Type} (uapply : σ → RLog → σ × ρ)
    (s : Raftchunking.State3 σ) (l : RLog) (op seq cnt : Nat) (nx : ExtBytes)
    (cs : List (Option (List Nat)))
    (hty : l.logType = .command) (hext : l.extensions = .info op seq cnt nx)
    (hterm : l.term = s.lastTerm) (hcs : s.opMap op = some cs) (hseq : seq < cs.length)
    (hmiss : ∃ o ∈ cs.set seq (some l.data), o = none ∨ o = some []) :
    Raftchunking.Apply uapply s l =
      some (⟨s.ust, mupd s.opMap op (cs.set seq (some l.data)), s.lastTerm⟩, .nil) := by
  have hcomp : ¬ Raftchunking.chunksComplete (cs.set seq (some l.data)) = true := by
    rcases hmiss with ⟨o, hmem, hcase⟩
    simp only [Raftchunking.chunksComplete, List.all_eq_true]
    intro hall
    have := hall o hmem
    rcases hcase with h0 | h0 <;> subst h0 <;> simp [Raftchunking.chunkPresent] at this
  simp only [Raftchunking.Apply, hext, Raftchunking.extDepth, Raftchunking.apply3Aux,
    hty, ne_eq, not_true_eq_false, if_false, hterm, not_false_eq_true]
  simp only [hcs]
  rw [if_pos hseq, if_neg hcomp]

/-- C10 counterexample: the claim states that once a pending operation
holds an empty-data chunk, every Apply for it returns nil and the entry is
only ever removed by a term change. But after a first one-chunk operation
stores empty data (Apply returns nil, entry retained), re-sending sequence
number 0 with nonempty data overwrites the empty slot, completes
reconstruction, forwards to the wrapped machine (result .resp 1), and
removes the pending entry - all without any term change. -/
theorem C10_cex_overwrite_completes :
    (Raftchunking.Apply mockApply3 ⟨[], fun _ => none, 0⟩
        ⟨0, 0, .command, [], .info 1 0 1 .noExt⟩).map (fun p => p.2) = some .nil
    ∧ (Raftchunking.Apply mockApply3 ⟨[], fun _ => none, 0⟩
        ⟨0, 0, .command, [], .info 1 0 1 .noExt⟩).map (fun p => p.1.opMap 1)
      = some (some [some []])
    ∧ ((Raftchunking.Apply mockApply3 ⟨[], fun _ => none, 0⟩
          ⟨0, 0, .command, [], .info 1 0 1 .noExt⟩).bind
        (fun p => Raftchunking.Apply mockApply3 p.1
          ⟨1, 0, .command, [5], .info 1 0 1 .noExt⟩)).map (fun p => p.2)
      = some (.resp 1)
    ∧ ((Raftchunking.Apply mockApply3 ⟨[], fun _ => none, 0⟩
          ⟨0, 0, .command, [], .info 1 0 1 .noExt⟩).bind
        (fun p => Raftchunking.Apply mockApply3 p.1
          ⟨1, 0, .command, [5], .info 1 0 1 .noExt⟩)).map (fun p => p.1.opMap 1)
      = some none := by
  refine ⟨?_, ?_, ?_, ?_⟩ <;> decide

/-- Closed witness for `C10_empty_chunk_blocks`: a two-chunk operation
whose first stored chunk has empty data; the arriving second chunk does
not complete it. -/
theorem C10_empty_chunk_blocks_witness :
    (RLog.mk 3 0 .command [9] (.info 1 1 2 .noExt)).logType = .command
    ∧ (RLog.mk 3 0 .command [9] (.info 1 1 2 .noExt)).extensions = .info 1 1 2 .noExt
    ∧ (RLog.mk 3 0 .command [9] (.info 1 1 2 .noExt)).term
        = (Raftchunking.State3.mk ([] : List RLog)
            (mupd (fun _ => none) 1 [some [], none]) 0).lastTerm
    ∧ (mupd (fun _ => none) 1 [some [], none]) 1
        = some [some ([] : List Nat), none]
    ∧ (1 : Nat) < [some ([] : List Nat), none].length
    ∧ (∃ o ∈ ([some [], none] : List (Option (List Nat))).set 1
          (some (RLog.mk 3 0 .command [9] (.info 1 1 2 .noExt)).data),
        o = none ∨ o = some [])
    ∧ Raftchunking.Apply mockApply3
        ⟨[], mupd (fun _ => none) 1 [some [], none], 0⟩
        ⟨3, 0, .command, [9], .info 1 1 2 .noExt⟩
      = some (⟨[], mupd (mupd (fun _ => none) 1 [some [], none]) 1
          (([some [], none] : List (Option (List Nat))).set 1
            (some (RLog.mk 3 0 .command [9] (.info 1 1 2 .noExt)).data)), 0⟩, .nil) :=
  ⟨rfl, rfl, rfl, by simp [mupd], by decide, by decide,
    C10_empty_chunk_blocks mockApply3
      ⟨[], mupd (fun _ => none) 1 [some [], none], 0⟩
      ⟨3, 0, .command, [9], .info 1 1 2 .noExt⟩ 1 1 2 .noExt [some [], none]
      rfl rfl rfl (by simp [mupd]) (by decide) (by decide)⟩

/-- The raft library's delivery of submitted logs to the FSM: each log is
tagged with its committed term `t` and consecutive indexes from `idx`;
type, data and extensions are delivered unchanged. -/
def assignTI (t : Nat) : Nat → List RLog → List RLog
  | _, [] => []
  | idx, l :: ls => ⟨idx, t, l.logType, l.data, l.extensions⟩ :: assignTI t (idx + 1) ls

/-- The logs of one chunked operation as the FSM receives them: chunk `j`
onward of a command split into `N` chunks, with term `t` and consecutive
indexes from `base`. -/
def appliedChunkLogs (t id N : Nat) (ext : ExtBytes) : Nat → Nat → List (List Nat) → List RLog
  | _, _, [] => []
  | base, j, c :: cs =>
    ⟨base, t, .command, c,
      .info id (j % 2 ^ 32) (N % 2 ^ 32) (if j = N - 1 then ext else .noExt)⟩ ::
      appliedChunkLogs t id N ext (base + 1) (j + 1) cs

theorem assignTI_chunkLogsAux (t id N : Nat) (ext : ExtBytes) :
    ∀ (cs : List (List Nat)) (j base : Nat),
      assignTI t base (chunkLogsAux id N ext j cs) = appliedChunkLogs t id N ext base j cs := by
  intro cs
  induction cs with
  | nil => intro j base; rfl
  | cons c rest ih =>
    intro j base
    simp only [chunkLogsAux, assignTI, appliedChunkLogs, ih (j + 1) (base + 1)]

theorem mdel_mupd {α : Type} (m : Nat → Option α) (k : Nat) (v : α) :
    mdel (mupd m k v) k = mdel m k := by
  funext q
  simp only [mdel, mupd]
  by_cases h : q = k <;> simp [h]

theorem mupd_get_self {α : Type} (m : Nat → Option α) (k : Nat) (v : α) :
    mupd m k v k = some v := by
  simp [mupd]

theorem set_get?_self {α : Type} :
    ∀ (sl : List α) (j : Nat) (x : α), j < sl.length → (sl.set j x).get? j = some x := by
  intro sl
  induction sl with
  | nil => intro j x h; simp at h
  | cons o rest ih =>
    intro j x h
    cases j with
    | zero => rfl
    | succ j =>
      simp only [List.set_cons_succ, List.get?_cons_succ]
      exact ih j x (by simpa using Nat.lt_of_succ_lt_succ h)

theorem set_get?_ne {α : Type} :
    ∀ (sl : List α) (j k : Nat) (x : α), j ≠ k → (sl.set j x).get? k = sl.get? k := by
  intro sl
  induction sl with
  | nil => intro j k x _; simp
  | cons o rest ih =>
    intro j k x hne
    cases j with
    | zero =>
      cases k with
      | zero => exact absurd rfl hne
      | succ k => rfl
    | succ j =>
      cases k with
      | zero => rfl
      | succ k =>
        simp only [List.set_cons_succ, List.get?_cons_succ]
        exact ih j k x (fun h => hne (by rw [h]))

theorem set_take_succ {α : Type} :
    ∀ (sl : List α) (j : Nat) (x : α), j < sl.length →
      (sl.set j x).take (j + 1) = sl.take j ++ [x] := by
  intro sl
  induction sl with
  | nil => intro j x h; simp at h
  | cons o rest ih =>
    intro j x h
    cases j with
    | zero => rfl
    | succ j =>
      simp only [List.set_cons_succ, List.take_succ_cons, List.cons_append]
      congr 1
      exact ih j x (by simpa using Nat.lt_of_succ_lt_succ h)

theorem replicate_get? {α : Type} (x : α) :
    ∀ (n k : Nat), k < n → (List.replicate n x).get? k = some x := by
  intro n
  induction n with
  | zero => intro k h; omega
  | succ n ih =>
    intro k h
    cases k with
    | zero => rfl
    | succ k => exact ih k (by omega)

theorem reconstructData_foldl :
    ∀ (cs : List (Option (List Nat))) (acc : List Nat),
      cs.foldl (fun a o => a ++ o.getD []) acc =
        acc ++ (cs.map fun o => o.getD []).flatten := by
  intro cs
  induction cs with
  | nil => intro acc; simp
  | cons o rest ih =>
    intro acc
    simp only [List.foldl_cons, List.map_cons, List.flatten_cons, ih (acc ++ o.getD [])]
    simp [List.append_assoc]

theorem reconstructData_eq (cs : List (Option (List Nat))) :
    Raftchunking.reconstructData cs = (cs.map fun o => o.getD []).flatten := by
  show cs.foldl (fun a o => a ++ o.getD []) [] = _
  simpa using reconstructData_foldl cs []

theorem chunksComplete_of_get? (cs : List (Option (List Nat)))
    (h : ∀ k o, cs.get? k = some o → Raftchunking.chunkPresent o = true) :
    Raftchunking.chunksComplete cs = true := by
  simp only [Raftchunking.chunksComplete, List.all_eq_true]
  intro o ho
  rcases List.get?_of_mem ho with ⟨n, hn⟩
  exact h n o hn

theorem chunksComplete_false_of_get? (cs : List (Option (List Nat))) (k : Nat)
    (o : Option (List Nat)) (ho : cs.get? k = some o)
    (hp : Raftchunking.chunkPresent o = false) :
    ¬ Raftchunking.chunksComplete cs = true := by
  simp only [Raftchunking.chunksComplete, List.all_eq_true]
  intro hall
  have := hall o (List.get?_mem ho)
  rw [hp] at this
  exact Bool.false_ne_true this

theorem byteChunks_mem_ne_nil (cmd : List Nat) (c : List Nat)
    (hc : c ∈ byteChunks cmd) : c ≠ [] := by
  rcases List.get?_of_mem hc with ⟨n, hn⟩
  exact (byteChunks_sizes cmd n c hn).1

/-- One chunk arrives for operation `id` (slice `sl` stored, or about to be
allocated as `N` placeholders) and does not complete it: the updated slice
is stored back and Apply returns nil. -/
theorem apply3_step_incomplete {σ ρ : Type} (uapply : σ → RLog → σ × ρ)
    (u : σ) (m : Nat → Option (List (Option (List Nat)))) (t base id j N : Nat)
    (c : List Nat) (sl : List (Option (List Nat)))
    (hN : N < 2 ^ 32) (hj : j < N) (hlen : sl.length = N)
    (hm : m id = some sl ∨ (m id = none ∧ sl = List.replicate N none))
    (hinc : ¬ Raftchunking.chunksComplete (sl.set j (some c)) = true) :
    Raftchunking.Apply uapply ⟨u, m, t⟩
        ⟨base, t, .command, c, .info id (j % 2 ^ 32) (N % 2 ^ 32) .noExt⟩ =
      some (⟨u, mupd m id (sl.set j (some c)), t⟩, .nil) := by
  have hjm : j % 2 ^ 32 = j := Nat.mod_eq_of_lt (lt_trans hj hN)
  have hNm : N % 2 ^ 32 = N := Nat.mod_eq_of_lt hN
  simp only [Raftchunking.Apply, Raftchunking.extDepth, Raftchunking.apply3Aux, hjm, hNm,
    ne_eq, not_true_eq_false, if_false, ite_false]
  rcases hm with hm | ⟨hm, hsl⟩
  · simp only [hm]
    rw [if_pos (by rw [hlen]; exact hj), if_neg hinc]
  · simp only [hm, hsl]
    rw [if_pos (by rw [List.length_replicate]; exact hj), if_neg (by rw [← hsl]; exact hinc)]

/-- One chunk arrives for operation `id` and completes it: the pending
entry is deleted and the reconstructed entry (reusing the triggering
entry's term/index/type) is forwarded to the wrapped machine, whose result
is returned. -/
theorem apply3_step_complete {σ ρ : Type} (uapply : σ → RLog → σ × ρ)
    (u : σ) (m : Nat → Option (List (Option (List Nat)))) (t base id j N : Nat)
    (c : List Nat) (sl : List (Option (List Nat)))
    (hN : N < 2 ^ 32) (hj : j < N) (hlen : sl.length = N)
    (hm : m id = some sl ∨ (m id = none ∧ sl = List.replicate N none))
    (hcomp : Raftchunking.chunksComplete (sl.set j (some c)) = true) :
    Raftchunking.Apply uapply ⟨u, m, t⟩
        ⟨base, t, .command, c, .info id (j % 2 ^ 32) (N % 2 ^ 32) .noExt⟩ =
      some (⟨(uapply u ⟨base, t, .command,
          Raftchunking.reconstructData (sl.set j (some c)), .noExt⟩).1, mdel m id, t⟩,
        .resp (uapply u ⟨base, t, .command,
          Raftchunking.reconstructData (sl.set j (some c)), .noExt⟩).2) := by
  have hjm : j % 2 ^ 32 = j := Nat.mod_eq_of_lt (lt_trans hj hN)
  have hNm : N % 2 ^ 32 = N := Nat.mod_eq_of_lt hN
  simp only [Raftchunking.Apply, Raftchunking.extDepth, Raftchunking.apply3Aux, hjm, hNm,
    ne_eq, not_true_eq_false, if_false, ite_false]
  rcases hm with hm | ⟨hm, hsl⟩
  · simp only [hm]
    rw [if_pos (by rw [hlen]; exact hj), if_pos hcomp]
    simp only [Raftchunking.apply3Aux, mdel_mupd]
  · simp only [hm, hsl]
    rw [if_pos (by rw [List.length_replicate]; exact hj), if_pos (by rw [← hsl]; exact hcomp)]
    rw [← hsl]
    simp only [Raftchunking.apply3Aux, mdel_mupd]

theorem ApplyAll_congr_head {σ ρ : Type} (uapply : σ → RLog → σ × ρ)
    (s1 s2 : Raftchunking.State3 σ) (l : RLog) (ls : List RLog)
    (h : Raftchunking.Apply uapply s1 l = Raftchunking.Apply uapply s2 l) :
    Raftchunking.ApplyAll uapply s1 (l :: ls) = Raftchunking.ApplyAll uapply s2 (l :: ls) := by
  simp only [Raftchunking.ApplyAll, h]

theorem ApplyAll_cons_step {σ ρ : Type} (uapply : σ → RLog → σ × ρ)
    (s s' : Raftchunking.State3 σ) (l l2 : RLog) (ls : List RLog)
    (h : Raftchunking.Apply uapply s l = some (s', .nil)) :
    Raftchunking.ApplyAll uapply s (l :: l2 :: ls) =
      Raftchunking.ApplyAll uapply s' (l2 :: ls) := by
  simp only [Raftchunking.ApplyAll, h]

/-- Reassembly loop invariant: starting from a state whose slice for `id`
holds nonempty data in the first `j` slots and placeholders after (or is
about to be allocated), applying the remaining chunks `j .. N-1` in order
ends with the pending entry removed, exactly one entry forwarded to the
wrapped machine - carrying the concatenation of all chunk data - and the
wrapped machine's response returned by the final Apply. -/
theorem fill_loop {ρ : Type} (respF : List RLog → RLog → ρ) (id N t : Nat)
    (hN : N < 2 ^ 32) :
    ∀ (cs' : List (List Nat)) (j base : Nat) (sl : List (Option (List Nat)))
      (m : Nat → Option (List (Option (List Nat)))) (u : List RLog),
      j + cs'.length = N →
      sl.length = N →
      cs' ≠ [] →
      (∀ c ∈ cs', c ≠ []) →
      (∀ k, k < j → ∃ d, sl.get? k = some (some d) ∧ d ≠ []) →
      (∀ k, j ≤ k → k < N → sl.get? k = some none) →
      (m id = some sl ∨ (m id = none ∧ sl = List.replicate N none)) →
      Raftchunking.ApplyAll (traceApply3 respF) ⟨u, m, t⟩
          (appliedChunkLogs t id N .noExt base j cs') =
        some (⟨u ++ [⟨base + (cs'.length - 1), t, .command,
            ((sl.take j).map fun o => o.getD []).flatten ++ cs'.flatten, .noExt⟩],
          mdel m id, t⟩,
          .resp (respF u ⟨base + (cs'.length - 1), t, .command,
            ((sl.take j).map fun o => o.getD []).flatten ++ cs'.flatten, .noExt⟩)) := by
  intro cs'
  induction cs' with
  | nil =>
    intro j base sl m u hsum hlen hne
    exact absurd rfl hne
  | cons c cs'' ih =>
    intro j base sl m u hsum hlen _ hnonempty hpre hsuf hm
    have hj : j < N := by
      simp only [List.length_cons] at hsum
      omega
    have hjlt : j < sl.length := by rw [hlen]; exact hj
    have hcne : c ≠ [] := hnonempty c (by simp)
    cases cs'' with
    | nil =>
      have hj1 : j + 1 = N := by simpa using hsum
      have hcomp : Raftchunking.chunksComplete (sl.set j (some c)) = true := by
        apply chunksComplete_of_get?
        intro k o hk
        by_cases hkj : k = j
        · subst hkj
          rw [set_get?_self sl k (some c) hjlt] at hk
          cases hk
          simp only [Raftchunking.chunkPresent, Bool.not_eq_true']
          simp [hcne]
        · rw [set_get?_ne sl j k (some c) (fun h => hkj h.symm)] at hk
          have hklt : k < sl.length := (List.get?_eq_some.mp hk).1
          have hkj' : k < j := by
            rw [hlen] at hklt
            omega
          rcases hpre k hkj' with ⟨d, hd, hdne⟩
          rw [hd] at hk
          cases hk
          simp only [Raftchunking.chunkPresent, Bool.not_eq_true']
          simp [hdne]
      have hdata : Raftchunking.reconstructData (sl.set j (some c)) =
          ((sl.take j).map fun o => o.getD []).flatten ++ c := by
        have hlen' : (sl.set j (some c)).length = j + 1 := by
          rw [List.length_set, hlen]
          omega
        have h1 : sl.set j (some c) = sl.take j ++ [some c] := by
          conv_lhs => rw [← List.take_length (sl.set j (some c))]
          rw [hlen']
          exact set_take_succ sl j (some c) hjlt
        rw [reconstructData_eq, h1]
        simp [List.map_append]
      simp only [appliedChunkLogs, ite_self]
      simp only [Raftchunking.ApplyAll]
      rw [apply3_step_complete (traceApply3 respF) u m t base id j N c sl hN hj hlen hm hcomp]
      simp only [traceApply3, List.length_cons, List.flatten_cons, List.flatten_nil,
        List.append_nil, Nat.sub_self, Nat.add_zero]
      rw [hdata]
      simp
    | cons c2 cs3 =>
      have hj1 : j + 1 < N := by
        simp only [List.length_cons] at hsum
        omega
      have hinc : ¬ Raftchunking.chunksComplete (sl.set j (some c)) = true := by
        apply chunksComplete_false_of_get? _ (j + 1) none
        · rw [set_get?_ne sl j (j + 1) (some c) (by omega)]
          exact hsuf (j + 1) (by omega) hj1
        · rfl
      simp only [appliedChunkLogs]
      rw [if_neg (show ¬ j = N - 1 by omega)]
      have happly := apply3_step_incomplete (traceApply3 respF) u m t base id j N c sl
        hN hj hlen hm hinc
      have hlist : appliedChunkLogs t id N ExtBytes.noExt (base + 1) (j + 1) (c2 :: cs3) =
          ⟨base + 1, t, .command, c2,
            .info id ((j + 1) % 2 ^ 32) (N % 2 ^ 32)
              (if j + 1 = N - 1 then ExtBytes.noExt else .noExt)⟩ ::
            appliedChunkLogs t id N ExtBytes.noExt (base + 1 + 1) (j + 1 + 1) cs3 := rfl
      rw [ApplyAll_cons_step (traceApply3 respF) _ _ _ _ _ happly]
      rw [← hlist]
      have hnewlen : (sl.set j (some c)).length = N := by rw [List.length_set]; exact hlen
      have hIH := ih (j + 1) (base + 1) (sl.set j (some c)) (mupd m id (sl.set j (some c))) u
        (by simp only [List.length_cons] at hsum ⊢; omega)
        hnewlen
        (by simp)
        (fun d hd => hnonempty d (by simp [hd]))
        (fun k hk => by
          by_cases hkj : k = j
          · subst hkj
            refine ⟨c, ?_, hcne⟩
            exact set_get?_self sl k (some c) hjlt
          · rw [set_get?_ne sl j k (some c) (fun h => hkj h.symm)]
            exact hpre k (by omega))
        (fun k hk1 hk2 => by
          rw [set_get?_ne sl j k (some c) (by omega)]
          exact hsuf k (by omega) hk2)
        (Or.inl (mupd_get_self m id (sl.set j (some c))))
      rw [hIH]
      have hidx : base + 1 + ((c2 :: cs3).length - 1) = base + ((c :: c2 :: cs3).length - 1) := by
        simp only [List.length_cons]
        omega
      have hdata : (((sl.set j (some c)).take (j + 1)).map fun o => o.getD []).flatten ++
            (c2 :: cs3).flatten =
          ((sl.take j).map fun o => o.getD []).flatten ++ (c :: c2 :: cs3).flatten := by
        rw [set_take_succ sl j (some c) hjlt]
        simp [List.map_append, List.append_assoc]
      have hmdel : mdel (mupd m id (sl.set j (some c))) id = mdel m id :=
        mdel_mupd m id (sl.set j (some c))
      rw [hidx, hdata, hmdel]

/-- C1: chunking a byte sequence with ChunkingApply (no trailing
extension) and applying every resulting log entry in order - delivered
with a common term and consecutive indexes - through the raftchunking
ChunkingFSM.Apply makes the wrapped machine receive exactly one entry,
whose data is the original byte sequence (so the in-order concatenation of
everything it receives during the operation is the original sequence,
including the empty one for length 0), and the final chunk's Apply returns
the wrapped machine's result for that reconstructed entry. Stated for a
fresh pending table; the chunk-count bound reflects the uint32 metadata. -/
theorem C1_roundtrip {ρ ρf : Type} (respF : List RLog → RLog → ρ)
    (o : EncOracle) (cmd : List Nat) (applyFunc : RLog → Future ρf) (id : Nat)
    (u0 : List RLog) (m0 : Nat → Option (List (Option (List Nat)))) (t t0 base : Nat)
    (hid : o.randRead = .ok id) (hread : o.readErr = none)
    (hmar : ∀ i, o.marshalErr i = none) (hN : (byteChunks cmd).length < 2 ^ 32)
    (hm0 : ∀ k, m0 k = none) :
    (cmd = [] →
      Raftchunking.ApplyAll (traceApply3 respF) ⟨u0, m0, t0⟩
        (assignTI t base (ChunkingApply o cmd .noExt applyFunc).2) =
        some (⟨u0, m0, t0⟩, .nil))
    ∧ (cmd ≠ [] →
        ∃ mf, Raftchunking.ApplyAll (traceApply3 respF) ⟨u0, m0, t0⟩
            (assignTI t base (ChunkingApply o cmd .noExt applyFunc).2) =
          some (⟨u0 ++ [⟨base + ((byteChunks cmd).length - 1), t, .command, cmd, .noExt⟩],
            mf, t⟩,
            .resp (respF u0
              ⟨base + ((byteChunks cmd).length - 1), t, .command, cmd, .noExt⟩))
          ∧ ∀ k, mf k = none) := by
  have hsub : (ChunkingApply o cmd ExtBytes.noExt applyFunc).2 = chunkLogs id cmd .noExt := by
    rw [ChunkingApply_clean o cmd .noExt applyFunc id hid hread hmar]
  constructor
  · intro hcmd
    subst hcmd
    rw [hsub]
    rfl
  · intro hcmd
    rw [hsub]
    rw [show chunkLogs id cmd ExtBytes.noExt =
      chunkLogsAux id (byteChunks cmd).length ExtBytes.noExt 0 (byteChunks cmd) from rfl]
    rw [assignTI_chunkLogsAux t id (byteChunks cmd).length ExtBytes.noExt (byteChunks cmd) 0 base]
    rcases hbc : byteChunks cmd with _ | ⟨c0, rest⟩
    · exact absurd ((byteChunks_eq_nil_iff cmd).mp hbc) hcmd
    · have hflat : (c0 :: rest).flatten = cmd := by
        rw [← hbc]
        exact byteChunks_flatten cmd
      have hN' : (c0 :: rest).length < 2 ^ 32 := hbc ▸ hN
      have hfill : ∀ (M : Nat → Option (List (Option (List Nat)))), (∀ k, M k = none) →
          Raftchunking.ApplyAll (traceApply3 respF) ⟨u0, M, t⟩
              (appliedChunkLogs t id (c0 :: rest).length ExtBytes.noExt base 0 (c0 :: rest)) =
            some (⟨u0 ++ [⟨base + ((c0 :: rest).length - 1), t, .command, cmd, .noExt⟩],
              mdel M id, t⟩,
              .resp (respF u0
                ⟨base + ((c0 :: rest).length - 1), t, .command, cmd, .noExt⟩)) := by
        intro M hM
        have hstep := fill_loop respF id (c0 :: rest).length t hN' (c0 :: rest) 0 base
          (List.replicate (c0 :: rest).length none) M u0 (by simp) (by simp) (by simp)
          (fun d hd => byteChunks_mem_ne_nil cmd d (hbc ▸ hd))
          (fun k hk => absurd hk (by omega))
          (fun k hk1 hk2 => replicate_get? none _ k hk2)
          (Or.inr ⟨hM id, rfl⟩)
        rw [hstep]
        simp [hflat]
      by_cases htt : t = t0
      · subst htt
        exact ⟨mdel m0 id, hfill m0 hm0, fun k => by simp [mdel, hm0 k]⟩
      · refine ⟨mdel (fun _ => none) id, ?_, fun k => by simp [mdel]⟩
        have hunfold : appliedChunkLogs t id (c0 :: rest).length ExtBytes.noExt base 0
              (c0 :: rest) =
            ⟨base, t, .command, c0,
              .info id (0 % 2 ^ 32) ((c0 :: rest).length % 2 ^ 32)
                (if 0 = (c0 :: rest).length - 1 then ExtBytes.noExt else ExtBytes.noExt)⟩ ::
              appliedChunkLogs t id (c0 :: rest).length ExtBytes.noExt (base + 1) (0 + 1)
                rest := rfl
        have hcong := ApplyAll_congr_head (traceApply3 respF) ⟨u0, m0, t0⟩
          ⟨u0, fun _ => none, t⟩
          ⟨base, t, .command, c0,
            .info id (0 % 2 ^ 32) ((c0 :: rest).length % 2 ^ 32)
              (if 0 = (c0 :: rest).length - 1 then ExtBytes.noExt else ExtBytes.noExt)⟩
          (appliedChunkLogs t id (c0 :: rest).length ExtBytes.noExt (base + 1) (0 + 1) rest)
          (apply3_term_normalize (traceApply3 respF) ⟨u0, m0, t0⟩ _ rfl (by simp) htt)
        rw [hunfold, hcong, ← hunfold]
        exact hfill (fun _ => none) (fun _ => rfl)

/-- Closed witness for `C1_roundtrip`: command [1, 2, 3] (one chunk), op
id 7, delivered with term 2 and indexes from 10 to a fresh FSM whose last
observed term is 0. -/
theorem C1_roundtrip_witness :
    (okOracle 7).randRead = .ok 7
    ∧ (okOracle 7).readErr = none
    ∧ (∀ i, (okOracle 7).marshalErr i = none)
    ∧ (byteChunks [1, 2, 3]).length < 2 ^ 32
    ∧ (∀ k, ((fun _ => none) : Nat → Option (List (Option (List Nat)))) k = none)
    ∧ ((([1, 2, 3] : List Nat) = [] →
        Raftchunking.ApplyAll (traceApply3 (fun (s : List RLog) (_ : RLog) => s.length + 1))
          ⟨[], fun _ => none, 0⟩
          (assignTI 2 10 (ChunkingApply (okOracle 7) [1, 2, 3] .noExt
            (fun _ => (⟨none, 0, 0⟩ : Future Nat))).2) =
          some (⟨[], fun _ => none, 0⟩, .nil))
      ∧ (([1, 2, 3] : List Nat) ≠ [] →
          ∃ mf, Raftchunking.ApplyAll
              (traceApply3 (fun (s : List RLog) (_ : RLog) => s.length + 1))
              ⟨[], fun _ => none, 0⟩
              (assignTI 2 10 (ChunkingApply (okOracle 7) [1, 2, 3] .noExt
                (fun _ => (⟨none, 0, 0⟩ : Future Nat))).2) =
            some (⟨[] ++
                [⟨10 + ((byteChunks [1, 2, 3]).length - 1), 2, .command, [1, 2, 3], .noExt⟩],
              mf, 2⟩,
              .resp ((fun (s : List RLog) (_ : RLog) => s.length + 1) []
                ⟨10 + ((byteChunks [1, 2, 3]).length - 1), 2, .command, [1, 2, 3], .noExt⟩))
            ∧ ∀ k, mf k = none)) :=
  ⟨rfl, rfl, fun _ => rfl, by decide, fun _ => rfl,
    C1_roundtrip (fun s _ => s.length + 1) (okOracle 7) [1, 2, 3]
      (fun _ => (⟨none, 0, 0⟩ : Future Nat)) 7 [] (fun _ => none) 2 0 10
      rfl rfl (fun _ => rfl) (by decide) (fun _ => rfl)⟩
